import Mathlib

/-!
Verification of the klipper display-menu / button-input subsystem
(`klippy/extras/buttons.py`, `klippy/extras/display/menu.py`).

The Python code is shallowly embedded: Python unbounded integers become
`Int`/`Nat` (with explicit `% 256` where the code masks with `0xff`),
Python floats become `Rat` (only order/min/max/± facts are used, which
IEEE arithmetic satisfies exactly for the operations involved), `None`
becomes `Option`, strings become `List Char`, and the mutable object
state of each class becomes an explicit state structure.  Side effects
that leave the modelled state (logging, enqueuing of gcode script text,
the reactor) are represented by returned event lists or omitted where
they cannot influence the modelled fields.
-/

namespace Buttons

/-- Python slice `l[-n:]` for an integer `n > 0`: the last `n` elements,
or all of `l` when `n ≥ l.length`. -/
def sliceLast (l : List Nat) (n : Int) : List Nat :=
  l.drop (l.length - n.toNat)

/-- The 8-bit sign-extension step of `MCU_buttons.handle_buttons_state`
(buttons.py lines 57-60): `ack_diff = (ack_count - params['ack_count']) & 0xff`
followed by `if ack_diff & 0x80: ack_diff -= 0x100`. -/
def ackDiffOf (ackCount : Int) (remoteAck : Nat) : Int :=
  let d : Nat := ((ackCount - remoteAck) % 256).toNat
  if d &&& 0x80 ≠ 0 then (d : Int) - 0x100 else (d : Int)

/-- `MCU_buttons.handle_buttons_state` (buttons.py lines 55-74).
State in: the local `ack_count`; message in: the remote 8-bit `ack_count`
and the batch of state bytes.  Returns the new local `ack_count` and the
bytes handed to `handle_button` (in order).  Sending the ack command to
the MCU is an external effect carrying `new_count`. -/
def handleButtonsState (ackCount : Int) (remoteAck : Nat) (buttons : List Nat) :
    Int × List Nat :=
  let ackDiff := ackDiffOf ackCount remoteAck
  let msgAckCount := ackCount - ackDiff
  let newCount := msgAckCount + buttons.length - ackCount
  if newCount ≤ 0 then (ackCount, [])
  else (ackCount + newCount, sliceLast buttons newCount)

end Buttons

namespace Buttons

set_option maxRecDepth 4096 in
/-- The bit test `d & 0x80` on an 8-bit value is the comparison `128 ≤ d`. -/
theorem land128_iff : ∀ d < 256, ((d &&& 128 ≠ 0) ↔ 128 ≤ d) := by decide

/-- Sign-extension facts: the reconstructed difference lies in [-128, 127]
and is congruent to the true difference mod 256. -/
theorem ackDiffOf_spec (a : Int) (r : Nat) :
    (-128 ≤ ackDiffOf a r ∧ ackDiffOf a r ≤ 127) ∧
    (a - r - ackDiffOf a r) % 256 = 0 := by
  simp only [ackDiffOf]
  have hm0 : (0 : Int) ≤ (a - r) % 256 := Int.emod_nonneg _ (by norm_num)
  have hm1 : (a - r) % 256 < 256 := Int.emod_lt_of_pos _ (by norm_num)
  have hdn : (((a - r) % 256).toNat : Int) = (a - r) % 256 :=
    Int.toNat_of_nonneg hm0
  have hd256 : ((a - r) % 256).toNat < 256 := by omega
  have hiff := land128_iff ((a - r) % 256).toNat hd256
  split
  · have h128 : 128 ≤ ((a - r) % 256).toNat := by
      rename_i h; exact hiff.mp h
    refine ⟨⟨by omega, by omega⟩, ?_⟩
    omega
  · have h128 : ¬ 128 ≤ ((a - r) % 256).toNat := by
      rename_i h; exact fun hc => h (hiff.mpr hc)
    refine ⟨⟨by omega, by omega⟩, ?_⟩
    omega

/-- When the remote count is the truncation of a true count whose distance
from the local count fits in 8 signed bits, sign extension is exact. -/
theorem ackDiffOf_exact (a t : Int) (r : Nat) (hr : (r : Int) = t % 256)
    (h1 : -128 ≤ a - t) (h2 : a - t ≤ 127) : ackDiffOf a r = a - t := by
  obtain ⟨⟨hb1, hb2⟩, hmod⟩ := ackDiffOf_spec a r
  omega

end Buttons

namespace Buttons

/-- C1 (amended): for every local ack count, every 8-bit remote ack count and
every batch, `handle_buttons_state` computes `ack_diff` as the 8-bit
sign-extension of `(local - remote) mod 256` (bounded by 127 in either
direction), computes `new_sample_count = backlog_start + len(batch) - local`;
when it is ≤ 0 the local ack count is unchanged and no samples are emitted;
when it is > 0 the last `min(new_sample_count, len(batch))` bytes of the batch
are emitted as new samples (exactly the last `new_sample_count` bytes whenever
`new_sample_count ≤ len(batch)`) and the local ack count advances by
`new_sample_count`; the sign extension recovers the true backlog exactly
across 8-bit wraparound whenever it is at most 127 in either direction. -/
theorem c1_reconstruction (ackCount : Int) (remoteAck : Nat) (buttons : List Nat)
    (_hr : remoteAck < 256) :
    (-128 ≤ ackDiffOf ackCount remoteAck ∧ ackDiffOf ackCount remoteAck ≤ 127) ∧
    (ackCount - remoteAck - ackDiffOf ackCount remoteAck) % 256 = 0 ∧
    (∀ newCount : Int,
      newCount = (ackCount - ackDiffOf ackCount remoteAck) +
          buttons.length - ackCount →
      (newCount ≤ 0 →
        handleButtonsState ackCount remoteAck buttons = (ackCount, [])) ∧
      (0 < newCount →
        handleButtonsState ackCount remoteAck buttons =
          (ackCount + newCount, buttons.drop (buttons.length - newCount.toNat)) ∧
        (handleButtonsState ackCount remoteAck buttons).2.length =
          min newCount.toNat buttons.length)) ∧
    (∀ trueRemote : Int, (remoteAck : Int) = trueRemote % 256 →
      -128 ≤ ackCount - trueRemote → ackCount - trueRemote ≤ 127 →
      ackDiffOf ackCount remoteAck = ackCount - trueRemote) := by
  obtain ⟨⟨hb1, hb2⟩, hmod⟩ := ackDiffOf_spec ackCount remoteAck
  refine ⟨⟨hb1, hb2⟩, hmod, ?_, ?_⟩
  · intro newCount hnc
    have hcode : ackCount - ackDiffOf ackCount remoteAck +
        (buttons.length : Int) - ackCount = newCount := by omega
    constructor
    · intro hle
      simp only [handleButtonsState, hcode, if_pos hle]
    · intro hpos
      have hnle : ¬ (newCount ≤ 0) := by omega
      simp only [handleButtonsState, hcode, if_neg hnle, sliceLast]
      refine ⟨trivial, ?_⟩
      simp only [List.length_drop]
      omega
  · intro trueRemote hrm hlo hhi
    exact ackDiffOf_exact ackCount trueRemote remoteAck hrm hlo hhi

/-- C1 counterexample to the claim as stated: with local ack count 0, remote
ack count 1 and a 1-byte batch, the code computes `new_sample_count = 2` but
treats only 1 byte (the whole batch) as new samples, while still advancing
the local ack count by 2. -/
theorem c1_counterexample :
    ((0 : Int) - ackDiffOf 0 1 + (([7] : List Nat).length : Int) - 0) = 2 ∧
    handleButtonsState 0 1 [7] = (2, [7]) ∧
    (handleButtonsState 0 1 [7]).2.length = 1 := by decide

/-- C1 witness: normal operation, local count 300, true remote count 298
(sent as 42 = 298 mod 256), 3-byte batch; one new sample. -/
theorem c1_witness :
    ((42 : Nat) < 256 ∧ (42 : Int) = 298 % 256 ∧
      -128 ≤ (300 : Int) - 298 ∧ (300 : Int) - 298 ≤ 127) ∧
    ackDiffOf 300 42 = 300 - 298 :=
  ⟨⟨by decide, by decide, by decide, by decide⟩,
    (c1_reconstruction 300 42 [1, 2, 3] (by decide)).2.2.2 298
      (by decide) (by decide) (by decide)⟩

end Buttons

namespace Buttons

/-- The callback-dispatch loop of `MCU_buttons.handle_button` (buttons.py
lines 78-80).  A registered callback triple `(mask, shift, cb)` is modelled
with `cb : Nat` an identifier unique to the `setup_buttons` registration
(Python compares the list entries by object identity).  `b` is the
invert-adjusted sample and `changed` the XOR with the previously stored
sample; each triple whose mask intersects `changed` contributes one event
`(cb, eventtime, (b &&& mask) >>> shift)`, in registration order. -/
def handleButtonEvents (eventtime : Rat) (b changed : Nat) :
    List (Nat × Nat × Nat) → List (Nat × Rat × Nat)
  | [] => []
  | (mask, shift, cb) :: rest =>
    if changed &&& mask ≠ 0 then
      (cb, eventtime, (b &&& mask) >>> shift) :: handleButtonEvents eventtime b changed rest
    else
      handleButtonEvents eventtime b changed rest

/-- `MCU_buttons.handle_button` (buttons.py lines 75-81): XOR the raw byte
with the invert mask, XOR with the stored previous (inverted) sample,
dispatch the callbacks, and finally store the inverted sample.  Returns the
dispatched events and the new `last_button` value. -/
def handleButton (invert lastButton : Nat) (callbacks : List (Nat × Nat × Nat))
    (eventtime : Rat) (button : Nat) : List (Nat × Rat × Nat) × Nat :=
  let b := button ^^^ invert
  let changed := b ^^^ lastButton
  (handleButtonEvents eventtime b changed callbacks, b)

/-- Events dispatched for an identifier that is not registered: none. -/
theorem handleButtonEvents_filter_not_mem (eventtime : Rat) (b changed cb : Nat) :
    ∀ cbs : List (Nat × Nat × Nat), cb ∉ cbs.map (fun t => t.2.2) →
      (handleButtonEvents eventtime b changed cbs).filter
        (fun e => e.1 == cb) = [] := by
  intro cbs
  induction cbs with
  | nil => intro _; rfl
  | cons hd tl ih =>
    intro hmem
    obtain ⟨mask, shift, cbid⟩ := hd
    have hne : cbid ≠ cb := by
      intro hc; exact hmem (by simp [hc])
    have htl : cb ∉ tl.map (fun t => t.2.2) := by
      intro hc; exact hmem (by simp [hc])
    simp only [handleButtonEvents]
    split
    · simp only [List.filter_cons]
      have : ((cbid == cb) : Bool) = false := by
        simp [hne]
      simp only [this, Bool.false_eq_true, if_false]
      exact ih htl
    · exact ih htl

end Buttons

namespace Buttons

/-- No event carries an identifier that is not registered. -/
theorem handleButtonEvents_not_mem (eventtime : Rat) (b changed cb : Nat) :
    ∀ cbs : List (Nat × Nat × Nat), cb ∉ cbs.map (fun t => t.2.2) →
      ∀ t v, (cb, t, v) ∉ handleButtonEvents eventtime b changed cbs := by
  intro cbs
  induction cbs with
  | nil => intro _ t v h; exact (List.not_mem_nil _ h)
  | cons hd tl ih =>
    intro hmem t v
    obtain ⟨mask, shift, cbid⟩ := hd
    have hne : cbid ≠ cb := by
      intro hc; exact hmem (by simp [hc])
    have htl : cb ∉ tl.map (fun t => t.2.2) := by
      intro hc; exact hmem (by simp [hc])
    simp only [handleButtonEvents]
    split
    · intro hin
      rcases List.mem_cons.mp hin with heq | hin2
      · exact hne (by injection heq with h1 _; exact h1.symm)
      · exact ih htl t v hin2
    · exact ih htl t v

/-- Per-registration dispatch: with distinct registration identifiers, a
triple whose mask intersects `changed` produces exactly one event with the
extracted value, and a triple whose mask does not intersect produces none. -/
theorem handleButtonEvents_spec (eventtime : Rat) (b changed : Nat) :
    ∀ cbs : List (Nat × Nat × Nat), (cbs.map (fun t => t.2.2)).Nodup →
      ∀ mask shift cb, (mask, shift, cb) ∈ cbs →
        (changed &&& mask ≠ 0 →
          (handleButtonEvents eventtime b changed cbs).filter
            (fun e => e.1 == cb) =
            [(cb, eventtime, (b &&& mask) >>> shift)]) ∧
        (changed &&& mask = 0 →
          ∀ t v, (cb, t, v) ∉ handleButtonEvents eventtime b changed cbs) := by
  intro cbs
  induction cbs with
  | nil => intro _ mask shift cb hmem; exact absurd hmem (List.not_mem_nil _)
  | cons hd tl ih =>
    intro hnodup mask shift cb hmem
    obtain ⟨m, s, c⟩ := hd
    have hnodup2 : (tl.map (fun t => t.2.2)).Nodup :=
      (List.nodup_cons.mp hnodup).2
    have hcnotin : c ∉ tl.map (fun t => t.2.2) :=
      (List.nodup_cons.mp hnodup).1
    rcases List.mem_cons.mp hmem with heq | htail
    · -- the triple is the head
      injection heq with h1 h2
      injection h2 with h2 h3
      subst h1; subst h2; subst h3
      constructor
      · intro hfire
        simp only [handleButtonEvents, if_pos hfire, List.filter_cons]
        have hbeq : ((cb == cb) : Bool) = true := by simp
        simp only [hbeq, if_true]
        rw [handleButtonEvents_filter_not_mem eventtime b changed cb tl hcnotin]
      · intro hquiet t v
        simp only [handleButtonEvents]
        rw [if_neg (by simp [hquiet])]
        exact handleButtonEvents_not_mem eventtime b changed cb tl hcnotin t v
    · -- the triple is in the tail
      have hcne : c ≠ cb := by
        intro hc
        exact hcnotin (hc ▸ List.mem_map.mpr ⟨(mask, shift, cb), htail, rfl⟩)
      have hih := ih hnodup2 mask shift cb htail
      constructor
      · intro hfire
        simp only [handleButtonEvents]
        split
        · simp only [List.filter_cons]
          have : ((c == cb) : Bool) = false := by simp [hcne]
          simp only [this, Bool.false_eq_true, if_false]
          exact hih.1 hfire
        · exact hih.1 hfire
      · intro hquiet t v
        simp only [handleButtonEvents]
        split
        · intro hin
          rcases List.mem_cons.mp hin with heq2 | hin2
          · exact hcne (by injection heq2 with h1 _; exact h1.symm)
          · exact absurd hin2 (hih.2 hquiet t v)
        · exact hih.2 hquiet t v

end Buttons

namespace Buttons

/-- C2: `handle_button` XORs the raw byte with the invert mask, XORs with the
previously stored sample to get `changed`; every registered triple whose mask
intersects `changed` is invoked exactly once with the argument
`(eventtime, (inverted_sample & mask) >> shift)`, triples whose mask does not
intersect `changed` are not invoked, and the stored previous sample becomes
the inverted sample (the state update, returned alongside the event list,
takes effect only after the whole dispatch list is produced). -/
theorem c2_handle_button (invert lastButton button : Nat) (eventtime : Rat)
    (callbacks : List (Nat × Nat × Nat))
    (hnodup : (callbacks.map (fun t => t.2.2)).Nodup) :
    (handleButton invert lastButton callbacks eventtime button).2 =
      button ^^^ invert ∧
    ∀ mask shift cb, (mask, shift, cb) ∈ callbacks →
      (((button ^^^ invert) ^^^ lastButton) &&& mask ≠ 0 →
        (handleButton invert lastButton callbacks eventtime button).1.filter
          (fun e => e.1 == cb) =
          [(cb, eventtime, ((button ^^^ invert) &&& mask) >>> shift)]) ∧
      (((button ^^^ invert) ^^^ lastButton) &&& mask = 0 →
        ∀ t v, (cb, t, v) ∉
          (handleButton invert lastButton callbacks eventtime button).1) := by
  refine ⟨rfl, ?_⟩
  intro mask shift cb hmem
  exact handleButtonEvents_spec eventtime (button ^^^ invert)
    ((button ^^^ invert) ^^^ lastButton) callbacks hnodup mask shift cb hmem

/-- C2 witness: two registered buttons (masks 1 and 2); pressing the first
dispatches exactly one event to registration 10 with value 1. -/
theorem c2_witness :
    ((([(1, 0, 10), (2, 1, 11)] : List (Nat × Nat × Nat)).map
        (fun t => t.2.2)).Nodup ∧
      (((1 ^^^ 0) ^^^ 0) &&& 1 ≠ 0) ∧ ((1, 0, 10) : Nat × Nat × Nat) ∈
        ([(1, 0, 10), (2, 1, 11)] : List (Nat × Nat × Nat))) ∧
    (handleButton 0 0 [(1, 0, 10), (2, 1, 11)] 0 1).1.filter
      (fun e => e.1 == 10) = [(10, (0 : Rat), ((1 ^^^ 0) &&& 1) >>> 0)] :=
  ⟨⟨by decide, by decide, by decide⟩,
    ((c2_handle_button 0 0 1 0 [(1, 0, 10), (2, 1, 11)] (by decide)).2
      1 0 10 (by decide)).1 (by decide)⟩

end Buttons

namespace Buttons

/-- Rotation direction of the encoder. -/
inductive EncDir where
  | cw
  | ccw
deriving DecidableEq

/-- `RotaryEncoder.encoder_callback` (buttons.py lines 124-134).  The state
is the pending direction (`next_callback`: `none`, clockwise or
counter-clockwise).  Returns the new pending direction and the direction
fired at this step, if any. -/
def encoderCallback (pending : Option EncDir) (state : Nat) :
    Option EncDir × Option EncDir :=
  if state = 3 then (none, none)
  else if state = 2 then (some EncDir.ccw, none)
  else if state = 1 then (some EncDir.cw, none)
  else
    match pending with
    | some d => (none, some d)
    | none => (none, none)

/-- Feed a sequence of 2-bit samples to the decoder; returns the final
pending direction and the fired events in order. -/
def encoderRun (pending : Option EncDir) : List Nat → Option EncDir × List EncDir
  | [] => (pending, [])
  | s :: rest =>
    let r := encoderCallback pending s
    let rr := encoderRun r.1 rest
    (rr.1, r.2.toList ++ rr.2)

/-- The 0-based positions in the input sequence at which a direction fires,
starting the numbering at `i`. -/
def encoderFiresAux (pending : Option EncDir) (i : Nat) : List Nat → List Nat
  | [] => []
  | s :: rest =>
    let r := encoderCallback pending s
    (if r.2.isSome then [i] else []) ++ encoderFiresAux r.1 (i + 1) rest

/-- The 0-based positions in the input sequence at which a direction fires. -/
def encoderFires (pending : Option EncDir) (l : List Nat) : List Nat :=
  encoderFiresAux pending 0 l

/-- C6: the decoder state machine: 3 clears the pending direction, 2 arms
counter-clockwise, 1 arms clockwise, any other value with a pending
direction fires it once and clears it (with none pending it does nothing);
consequently 1,1,1,0 yields exactly one cw event, 2,2,2,0 exactly one ccw
event, and 3,3,3 no event. -/
theorem c6_encoder_state_machine :
    (∀ p, encoderCallback p 3 = (none, none)) ∧
    (∀ p, encoderCallback p 2 = (some EncDir.ccw, none)) ∧
    (∀ p, encoderCallback p 1 = (some EncDir.cw, none)) ∧
    (∀ d v, v ≠ 1 → v ≠ 2 → v ≠ 3 →
      encoderCallback (some d) v = (none, some d)) ∧
    (∀ v, v ≠ 1 → v ≠ 2 → v ≠ 3 → encoderCallback none v = (none, none)) ∧
    (encoderRun none [1, 1, 1, 0]).2 = [EncDir.cw] ∧
    (encoderRun none [2, 2, 2, 0]).2 = [EncDir.ccw] ∧
    (encoderRun none [3, 3, 3]).2 = [] := by
  refine ⟨fun p => rfl, fun p => rfl, ?_, ?_, ?_, rfl, rfl, rfl⟩
  · intro p
    cases p <;> rfl
  · intro d v h1 h2 h3
    simp [encoderCallback, h1, h2, h3]
  · intro v h1 h2 h3
    simp [encoderCallback, h1, h2, h3]

/-- C6 witness: the no-op branch at a concrete input value 0 with pending
clockwise fires clockwise and clears the pending direction. -/
theorem c6_witness :
    ((0 : Nat) ≠ 1 ∧ (0 : Nat) ≠ 2 ∧ (0 : Nat) ≠ 3) ∧
    encoderCallback (some EncDir.cw) 0 = (none, some EncDir.cw) :=
  ⟨⟨by decide, by decide, by decide⟩,
    c6_encoder_state_machine.2.2.2.1 EncDir.cw 0
      (by decide) (by decide) (by decide)⟩

end Buttons

namespace Buttons

/-- On any code other than 1, 2, 3 the callback clears the pending direction
and fires the previously pending one (if any). -/
theorem encoderCallback_else (p : Option EncDir) (s : Nat)
    (h1 : s ≠ 1) (h2 : s ≠ 2) (h3 : s ≠ 3) :
    encoderCallback p s = (none, p) := by
  cases p <;> simp [encoderCallback, h1, h2, h3]

/-- Firing positions lie within the fed range. -/
theorem encoderFiresAux_mem_bounds (l : List Nat) :
    ∀ p i j, j ∈ encoderFiresAux p i l → i ≤ j ∧ j < i + l.length := by
  induction l with
  | nil => intro p i j h; simp [encoderFiresAux] at h
  | cons s rest ih =>
    intro p i j h
    simp only [encoderFiresAux, List.mem_append] at h
    rcases h with h | h
    · split at h
      · simp only [List.mem_singleton] at h
        subst h
        simp only [List.length_cons]
        omega
      · simp at h
    · have := ih (encoderCallback p s).1 (i + 1) j h
      simp only [List.length_cons]
      omega

/-- Starting from a cleared pending direction, any firing is preceded by a
directional code (1 or 2) at or after the start of the fed range. -/
theorem encoderFiresAux_rearm (l : List Nat) :
    ∀ i j, j ∈ encoderFiresAux none i l →
      ∃ k v, i ≤ k ∧ k < j ∧ l.get? (k - i) = some v ∧ (v = 1 ∨ v = 2) := by
  induction l with
  | nil => intro i j h; simp [encoderFiresAux] at h
  | cons s rest ih =>
    intro i j h
    by_cases h1 : s = 1
    · subst h1
      have hstep : encoderCallback none 1 = (some EncDir.cw, none) := rfl
      simp only [encoderFiresAux, hstep, Option.isSome_none, Bool.false_eq_true,
        if_false, List.nil_append] at h
      have hb := encoderFiresAux_mem_bounds rest (some EncDir.cw) (i + 1) j h
      refine ⟨i, 1, le_refl i, by omega, ?_, Or.inl rfl⟩
      simp
    · by_cases h2 : s = 2
      · subst h2
        have hstep : encoderCallback none 2 = (some EncDir.ccw, none) := rfl
        simp only [encoderFiresAux, hstep, Option.isSome_none, Bool.false_eq_true,
          if_false, List.nil_append] at h
        have hb := encoderFiresAux_mem_bounds rest (some EncDir.ccw) (i + 1) j h
        refine ⟨i, 2, le_refl i, by omega, ?_, Or.inr rfl⟩
        simp
      · -- s = 3 or any other code: pending stays cleared, no fire
        have hstep : encoderCallback none s = (none, none) := by
          by_cases h3 : s = 3
          · subst h3; rfl
          · exact encoderCallback_else none s h1 h2 h3
        simp only [encoderFiresAux, hstep, Option.isSome_none, Bool.false_eq_true,
          if_false, List.nil_append] at h
        obtain ⟨k, v, hk1, hk2, hget, hv⟩ := ih (i + 1) j h
        refine ⟨k, v, by omega, hk2, ?_, hv⟩
        have hsh : k - i = (k - (i + 1)) + 1 := by omega
        rw [hsh]
        exact hget

end Buttons

namespace Buttons

/-- Firing positions are produced in strictly increasing order. -/
theorem encoderFiresAux_chain (l : List Nat) :
    ∀ p i, List.Chain' (· < ·) (encoderFiresAux p i l) := by
  induction l with
  | nil => intro p i; simp [encoderFiresAux]
  | cons s rest ih =>
    intro p i
    simp only [encoderFiresAux]
    split
    · rw [List.singleton_append, List.chain'_cons']
      refine ⟨?_, ih _ _⟩
      intro b hb
      have hmem : b ∈ encoderFiresAux (encoderCallback p s).1 (i + 1) rest :=
        List.mem_of_mem_head? hb
      have := encoderFiresAux_mem_bounds rest _ (i + 1) b hmem
      omega
    · rw [List.nil_append]
      exact ih _ _

/-- Between two consecutive firing positions there is a directional code. -/
theorem encoderFiresAux_consec (l : List Nat) :
    ∀ p i a b,
      (a, b) ∈ (encoderFiresAux p i l).zip (encoderFiresAux p i l).tail →
      ∃ k v, a < k ∧ k < b ∧ l.get? (k - i) = some v ∧ (v = 1 ∨ v = 2) := by
  induction l with
  | nil => intro p i a b h; simp [encoderFiresAux] at h
  | cons s rest ih =>
    intro p i a b h
    by_cases hfire : (encoderCallback p s).2.isSome = true
    · -- this step fires: the code is not 1, 2 or 3 and a direction was pending
      have h1 : s ≠ 1 := by
        intro hc; subst hc; simp [encoderCallback] at hfire
      have h2 : s ≠ 2 := by
        intro hc; subst hc; simp [encoderCallback] at hfire
      have h3 : s ≠ 3 := by
        intro hc; subst hc; simp [encoderCallback] at hfire
      have hstep : encoderCallback p s = (none, p) :=
        encoderCallback_else p s h1 h2 h3
      simp only [encoderFiresAux, hstep] at h hfire
      rw [if_pos hfire] at h
      rcases hF : encoderFiresAux none (i + 1) rest with _ | ⟨c, F2⟩
      · rw [hF] at h; simp at h
      · rw [hF] at h
        simp only [List.singleton_append, List.tail_cons, List.zip_cons_cons,
          List.mem_cons] at h
        rcases h with heq | htail2
        · injection heq with ha hb2
          subst ha; subst hb2
          have hcmem : b ∈ encoderFiresAux none (a + 1) rest := by
            rw [hF]; exact List.mem_cons_self _ _
          obtain ⟨k, v, hk1, hk2, hget, hv⟩ :=
            encoderFiresAux_rearm rest (a + 1) b hcmem
          refine ⟨k, v, by omega, hk2, ?_, hv⟩
          have hsh : k - a = (k - (a + 1)) + 1 := by omega
          rw [hsh]
          exact hget
        · have hmem : (a, b) ∈ (encoderFiresAux none (i + 1) rest).zip
              (encoderFiresAux none (i + 1) rest).tail := by
            rw [hF]; simpa using htail2
          obtain ⟨k, v, hk1, hk2, hget, hv⟩ := ih none (i + 1) a b hmem
          have hamem : a ∈ encoderFiresAux none (i + 1) rest :=
            (List.of_mem_zip hmem).1
          have hab := encoderFiresAux_mem_bounds rest none (i + 1) a hamem
          refine ⟨k, v, hk1, hk2, ?_, hv⟩
          have hsh : k - i = (k - (i + 1)) + 1 := by omega
          rw [hsh]
          exact hget
    · -- no fire at this step
      simp only [encoderFiresAux] at h
      rw [if_neg hfire, List.nil_append] at h
      obtain ⟨k, v, hk1, hk2, hget, hv⟩ := ih _ (i + 1) a b h
      have hamem : a ∈ encoderFiresAux (encoderCallback p s).1 (i + 1) rest :=
        (List.of_mem_zip h).1
      have hab := encoderFiresAux_mem_bounds rest _ (i + 1) a hamem
      refine ⟨k, v, hk1, hk2, ?_, hv⟩
      have hsh : k - i = (k - (i + 1)) + 1 := by omega
      rw [hsh]
      exact hget

end Buttons

namespace Buttons

/-- C7 counterexample: the input 1,0,1,0 makes the decoder fire clockwise
twice (at positions 1 and 3) although the only code strictly between the
two firings is 1 — the sequence never passes through the home code 3
between the firings. -/
theorem c7_counterexample :
    encoderFires none [1, 0, 1, 0] = [1, 3] ∧
    (encoderRun none [1, 0, 1, 0]).2 = [EncDir.cw, EncDir.cw] ∧
    ([1, 0, 1, 0] : List Nat).get? 2 = some 1 := by decide

/-- C7 (amended): a direction callback fires at most once per arming: the
firing positions are strictly increasing, and between any two consecutive
firing positions the input holds a directional code (1 or 2) that re-arms
the pending direction.  (Passing through the home code 3 is not required
for re-arming.) -/
theorem c7_rearm_between (l : List Nat) :
    List.Chain' (· < ·) (encoderFires none l) ∧
    ∀ a b, (a, b) ∈ (encoderFires none l).zip (encoderFires none l).tail →
      ∃ k v, a < k ∧ k < b ∧ l.get? k = some v ∧ (v = 1 ∨ v = 2) := by
  constructor
  · exact encoderFiresAux_chain l none 0
  · intro a b h
    obtain ⟨k, v, h1, h2, h3, h4⟩ := encoderFiresAux_consec l none 0 a b h
    exact ⟨k, v, h1, h2, by simpa using h3, h4⟩

/-- C7 witness: for the consecutive firings at positions 1 and 3 of the
input 1,0,1,0 there is a re-arming directional code strictly between. -/
theorem c7_witness :
    ((1, 3) ∈ (encoderFires none [1, 0, 1, 0]).zip
        (encoderFires none [1, 0, 1, 0]).tail) ∧
    ∃ k v, 1 < k ∧ k < 3 ∧ ([1, 0, 1, 0] : List Nat).get? k = some v ∧
      (v = 1 ∨ v = 2) :=
  ⟨by decide, (c7_rearm_between [1, 0, 1, 0]).2 1 3 (by decide)⟩

end Buttons

namespace Menu

/-- The mutable state of a `MenuInput` item (menu.py lines 652-788).
Python float values are modelled as rationals; only comparisons, `min`,
`max` and `±` are applied to them.  `inputValue = none` models
`self._input_value is None` (the idle, not-editing state). -/
structure InputState where
  reverse : Bool
  inputStep : Rat
  inputStep2 : Rat
  inputMin : Rat
  inputMax : Rat
  inputValue : Option Rat
  isDirty : Bool
  lastChange : Option Rat
  lastHeartbeat : Option Rat
deriving DecidableEq

/-- `MenuInput.is_editing` (menu.py line 673-674):
`self._input_value is not None`. -/
def InputState.isEditingInput (s : InputState) : Bool :=
  s.inputValue.isSome

/-- `MenuInput._value_changed` (menu.py lines 723-725). -/
def InputState.valueChanged (s : InputState) : InputState :=
  { s with lastChange := s.lastHeartbeat, isDirty := true }

/-- `MenuInput._init_value` (menu.py lines 727-737).  The evaluated
`input_min`/`input_max` templates arrive as rationals; the evaluated
`input` template arrives as `some v` when `isfloat` accepts it and `none`
otherwise (in which case the value stays unset and an error is logged). -/
def InputState.initValue (s : InputState) (evalMin evalMax : Rat)
    (evalValue : Option Rat) : InputState :=
  let s1 := { s with inputValue := none, inputMin := evalMin,
                     inputMax := evalMax }
  match evalValue with
  | some v =>
    ({ s1 with
        inputValue := some (min s1.inputMax (max s1.inputMin v)) }).valueChanged
  | none => s1

/-- `MenuInput.start_editing` (menu.py lines 681-684). -/
def InputState.startEditingInput (s : InputState) (evalMin evalMax : Rat)
    (evalValue : Option Rat) : InputState :=
  if s.isEditingInput then s else s.initValue evalMin evalMax evalValue

/-- `MenuInput.stop_editing` (menu.py lines 676-679) via `_reset_value`. -/
def InputState.stopEditingInput (s : InputState) : InputState :=
  if s.isEditingInput then { s with inputValue := none } else s

/-- `MenuInput.inc_value` (menu.py lines 742-757). -/
def InputState.incValue (s : InputState) (fastRate : Bool) : InputState :=
  let lastValue := s.inputValue
  let inputStep := if fastRate = true ∧ 0 < s.inputStep2 then s.inputStep2
                   else s.inputStep
  match s.inputValue with
  | none => s
  | some v =>
    let v1 := if s.reverse = true then v - |inputStep| else v + |inputStep|
    let v2 := min s.inputMax (max s.inputMin v1)
    let s1 := { s with inputValue := some v2 }
    if lastValue ≠ some v2 then s1.valueChanged else s1

/-- `MenuInput.dec_value` (menu.py lines 759-774). -/
def InputState.decValue (s : InputState) (fastRate : Bool) : InputState :=
  let lastValue := s.inputValue
  let inputStep := if fastRate = true ∧ 0 < s.inputStep2 then s.inputStep2
                   else s.inputStep
  match s.inputValue with
  | none => s
  | some v =>
    let v1 := if s.reverse = true then v + |inputStep| else v - |inputStep|
    let v2 := min s.inputMax (max s.inputMin v1)
    let s1 := { s with inputValue := some v2 }
    if lastValue ≠ some v2 then s1.valueChanged else s1

/-- `MenuInput.heartbeat` (menu.py lines 689-696).  The inherited
`MenuItem.heartbeat` stores the event time (its scroll/second-tick path does
not touch any `MenuInput` field modelled here).  Returns the new state and
whether the debounced realtime `change` script was dispatched. -/
def InputState.heartbeat (s : InputState) (eventtime : Rat) :
    InputState × Bool :=
  let s1 := { s with lastHeartbeat := some eventtime }
  match s1.isDirty, s1.lastChange, s1.inputValue with
  | true, some c, some _ =>
    if (0.250 : Rat) < eventtime - c then ({ s1 with isDirty := false }, true)
    else (s1, false)
  | _, _, _ => (s1, false)

/-- A finite sequence of `inc_value`/`dec_value` calls: `(true, f)` is
`inc_value(fast_rate=f)`, `(false, f)` is `dec_value(fast_rate=f)`. -/
def applyOps : List (Bool × Bool) → InputState → InputState
  | [], s => s
  | op :: rest, s =>
    applyOps rest (if op.1 = true then s.incValue op.2 else s.decValue op.2)

end Menu

namespace Menu

/-- `inc_value` keeps the bounds and clamps the edited value into them. -/
theorem incValue_preserves (s : InputState) (f : Bool)
    (h : s.inputMin ≤ s.inputMax) :
    (s.incValue f).inputMin = s.inputMin ∧
    (s.incValue f).inputMax = s.inputMax ∧
    ∀ x, (s.incValue f).inputValue = some x →
      s.inputMin ≤ x ∧ x ≤ s.inputMax := by
  cases hv : s.inputValue with
  | none =>
    simp only [InputState.incValue, hv]
    refine ⟨by trivial, by trivial, ?_⟩
    intro x hx
    exact absurd hx (by simp)
  | some v =>
    simp only [InputState.incValue, hv]
    refine ⟨?_, ?_, ?_⟩
    · split <;> split <;> split <;> rfl
    · split <;> split <;> split <;> rfl
    · split <;> split <;> split <;>
        (intro x hx
         simp only [InputState.valueChanged, Option.some.injEq] at hx
         subst hx
         exact ⟨le_min h (le_max_left _ _), min_le_left _ _⟩)

/-- `dec_value` keeps the bounds and clamps the edited value into them. -/
theorem decValue_preserves (s : InputState) (f : Bool)
    (h : s.inputMin ≤ s.inputMax) :
    (s.decValue f).inputMin = s.inputMin ∧
    (s.decValue f).inputMax = s.inputMax ∧
    ∀ x, (s.decValue f).inputValue = some x →
      s.inputMin ≤ x ∧ x ≤ s.inputMax := by
  cases hv : s.inputValue with
  | none =>
    simp only [InputState.decValue, hv]
    refine ⟨by trivial, by trivial, ?_⟩
    intro x hx
    exact absurd hx (by simp)
  | some v =>
    simp only [InputState.decValue, hv]
    refine ⟨?_, ?_, ?_⟩
    · split <;> split <;> split <;> rfl
    · split <;> split <;> split <;> rfl
    · split <;> split <;> split <;>
        (intro x hx
         simp only [InputState.valueChanged, Option.some.injEq] at hx
         subst hx
         exact ⟨le_min h (le_max_left _ _), min_le_left _ _⟩)

/-- Any sequence of `inc_value`/`dec_value` calls keeps the bounds and keeps
the (possibly absent) value within them. -/
theorem applyOps_preserves (ops : List (Bool × Bool)) :
    ∀ s : InputState, s.inputMin ≤ s.inputMax →
      (∀ x, s.inputValue = some x → s.inputMin ≤ x ∧ x ≤ s.inputMax) →
      (applyOps ops s).inputMin = s.inputMin ∧
      (applyOps ops s).inputMax = s.inputMax ∧
      ∀ x, (applyOps ops s).inputValue = some x →
        s.inputMin ≤ x ∧ x ≤ s.inputMax := by
  induction ops with
  | nil => intro s h hval; exact ⟨rfl, rfl, hval⟩
  | cons op rest ih =>
    intro s h hval
    simp only [applyOps]
    have hstep :
        (if op.1 = true then s.incValue op.2 else s.decValue op.2).inputMin =
            s.inputMin ∧
        (if op.1 = true then s.incValue op.2 else s.decValue op.2).inputMax =
            s.inputMax ∧
        ∀ x, (if op.1 = true then s.incValue op.2
              else s.decValue op.2).inputValue = some x →
          s.inputMin ≤ x ∧ x ≤ s.inputMax := by
      split
      · exact incValue_preserves s op.2 h
      · exact decValue_preserves s op.2 h
    obtain ⟨hm1, hm2, hv2⟩ := hstep
    have hih := ih (if op.1 = true then s.incValue op.2 else s.decValue op.2)
      (by rw [hm1, hm2]; exact h)
      (by intro x hx; rw [hm1, hm2]; exact hv2 x hx)
    refine ⟨by rw [hih.1, hm1], by rw [hih.2.1, hm2], ?_⟩
    intro x hx
    have := hih.2.2 x hx
    rw [hm1, hm2] at this
    exact this

end Menu

namespace Menu

/-- C3: for a `MenuInput`, the value is `None` exactly when the item is not
editing (`is_editing` is true iff the value is non-`None`), and after
`start_editing` (initial clamp) followed by any finite sequence of
`inc_value`/`dec_value` calls with arbitrary step sizes and fast-rate flags,
the value — whenever present — satisfies `min ≤ value ≤ max` (for an input
whose evaluated bounds satisfy `min ≤ max`). -/
theorem c3_input_invariant (s : InputState) (evalMin evalMax : Rat)
    (evalValue : Option Rat) (ops : List (Bool × Bool))
    (hidle : s.inputValue = none) (hle : evalMin ≤ evalMax) :
    ((applyOps ops
        (s.startEditingInput evalMin evalMax evalValue)).isEditingInput = true ↔
      (applyOps ops
        (s.startEditingInput evalMin evalMax evalValue)).inputValue ≠ none) ∧
    (applyOps ops (s.startEditingInput evalMin evalMax evalValue)).inputMin
      = evalMin ∧
    (applyOps ops (s.startEditingInput evalMin evalMax evalValue)).inputMax
      = evalMax ∧
    ∀ x, (applyOps ops
        (s.startEditingInput evalMin evalMax evalValue)).inputValue = some x →
      evalMin ≤ x ∧ x ≤ evalMax := by
  have hs1 :
      (s.startEditingInput evalMin evalMax evalValue).inputMin = evalMin ∧
      (s.startEditingInput evalMin evalMax evalValue).inputMax = evalMax ∧
      ∀ x, (s.startEditingInput evalMin evalMax evalValue).inputValue
          = some x → evalMin ≤ x ∧ x ≤ evalMax := by
    simp only [InputState.startEditingInput, InputState.isEditingInput, hidle,
      Option.isSome_none, Bool.false_eq_true, if_false]
    cases evalValue with
    | none =>
      simp only [InputState.initValue]
      refine ⟨by trivial, by trivial, ?_⟩
      intro x hx
      exact absurd hx (by simp)
    | some v =>
      simp only [InputState.initValue, InputState.valueChanged]
      refine ⟨by trivial, by trivial, ?_⟩
      intro x hx
      simp only [Option.some.injEq] at hx
      subst hx
      exact ⟨le_min hle (le_max_left _ _), min_le_left _ _⟩
  obtain ⟨hm, hM, hval⟩ := hs1
  have hmain := applyOps_preserves ops
    (s.startEditingInput evalMin evalMax evalValue)
    (by rw [hm, hM]; exact hle)
    (fun x hx => by rw [hm, hM] at *; exact hval x hx)
  refine ⟨?_, by rw [hmain.1, hm], by rw [hmain.2.1, hM], ?_⟩
  · simp [InputState.isEditingInput, Option.isSome_iff_ne_none]
  · intro x hx
    have hb := hmain.2.2 x hx
    rw [hm, hM] at hb
    exact hb

/-- A concrete idle input item used by the closed instances below. -/
def idleInput : InputState :=
  { reverse := false, inputStep := 1, inputStep2 := 0, inputMin := 0,
    inputMax := 0, inputValue := none, isDirty := false,
    lastChange := none, lastHeartbeat := none }

/-- C3 witness: a concrete idle input, edited with bounds [0, 10], initial
value 5 and two adjustment calls. -/
theorem c3_witness :
    (idleInput.inputValue = none ∧ (0 : Rat) ≤ 10) ∧
    (applyOps [(true, false), (false, true)]
      (idleInput.startEditingInput 0 10 (some 5))).inputMin = 0 :=
  ⟨⟨rfl, by norm_num⟩,
    (c3_input_invariant idleInput 0 10 (some 5) [(true, false), (false, true)]
      rfl (by norm_num)).2.1⟩

/-- C10: for a `MenuInput` that is not editing (`_input_value is None`),
`inc_value` and `dec_value` leave the state completely unchanged (value,
dirty flag and last-change timestamp included), and the heartbeat never
dispatches the debounced realtime change script while the value is unset. -/
theorem c10_idle_noop (s : InputState) (f : Bool) (h : s.inputValue = none) :
    s.incValue f = s ∧ s.decValue f = s ∧
    ∀ t, (s.heartbeat t).2 = false := by
  refine ⟨?_, ?_, ?_⟩
  · simp only [InputState.incValue, h]
  · simp only [InputState.decValue, h]
  · intro t
    simp only [InputState.heartbeat]
    split
    · simp_all
    · rfl

/-- C10 witness: the concrete idle input is untouched by `inc_value` and
its heartbeat at time 1 dispatches nothing. -/
theorem c10_witness :
    (idleInput.inputValue = none) ∧
    idleInput.incValue true = idleInput ∧
    (idleInput.heartbeat 1).2 = false :=
  ⟨rfl, (c10_idle_noop idleInput true rfl).1,
    (c10_idle_noop idleInput true rfl).2.2 1⟩

end Menu

namespace Menu

/-- A menu item as seen from its container (menu.py `MenuItem`).  `id` models
Python object identity (each constructed item is a distinct object; the
registry never aliases two entries of one container), `enabled` the value of
`is_enabled()` (static over the scenarios considered), `editing` the value of
`is_editing()`, and the two flags the `isinstance` checks for `MenuInput`
and `MenuContainer`. -/
structure MItem where
  id : Nat
  enabled : Bool
  editing : Bool
  isInput : Bool
  isContainer : Bool
deriving DecidableEq

/-- The state of a `MenuSelector` (menu.py lines 575-649 together with the
`MenuContainer` item lists, lines 431-573).  `allitems` is the populated
`_allitems` list; the enabled sublist `_items` recomputed by `update_items`
(line 552-555) is derived from it since enablement is static here.
`selected` is stored exactly as `select_at` stores it: unvalidated. -/
structure Selector where
  id : Nat
  initial : Option Int
  selected : Option Int
  allitems : List MItem
deriving DecidableEq

/-- `MenuContainer.update_items` (menu.py lines 552-555): the enabled
sublist. -/
def Selector.items (s : Selector) : List MItem :=
  s.allitems.filter (fun it => it.enabled)

/-- `MenuContainer.is_editing` (menu.py lines 467-468). -/
def Selector.isEditingSel (s : Selector) : Bool :=
  s.items.any (fun it => it.editing)

/-- `MenuSelector.select_at` (menu.py lines 590-596): stores the index as
given; the `select` script run on the newly selected item is external. -/
def Selector.selectAt (s : Selector) (i : Option Int) : Selector :=
  { s with selected := i }

/-- `MenuSelector.init_selection` (menu.py lines 587-588). -/
def Selector.initSelection (s : Selector) : Selector :=
  s.selectAt s.initial

/-- `MenuSelector.selected_item` (menu.py lines 608-612). -/
def Selector.selectedItem (s : Selector) : Option MItem :=
  match s.selected with
  | some i =>
    if 0 ≤ i ∧ i < (s.items.length : Int) then s.items.get? i.toNat else none
  | none => none

/-- `MenuSelector.select_next` (menu.py lines 614-621). -/
def Selector.selectNext (s : Selector) : Selector :=
  let index : Option Int :=
    match s.selected with
    | none => if 0 < s.items.length then some 0 else none
    | some i =>
      if 0 ≤ i ∧ i < (s.items.length : Int) - 1 then some (i + 1) else some i
  s.selectAt index

/-- `MenuSelector.select_prev` (menu.py lines 623-630). -/
def Selector.selectPrev (s : Selector) : Selector :=
  let index : Option Int :=
    match s.selected with
    | none => if 0 < s.items.length then some 0 else none
    | some i =>
      if 0 < i ∧ i < (s.items.length : Int) then some (i - 1) else some i
  s.selectAt index

/-- `MenuContainer.index_of` (menu.py lines 500-506) for a direct child
container, identified by object identity (modelled by `id`).  The
`look_inside` fallback is consulted only when the sought container is not a
direct child and is not modelled here. -/
def Selector.indexOfId (s : Selector) (cid : Nat) : Option Nat :=
  s.items.findIdx? (fun it => it.id == cid)

/-- `MenuSelector.handle_command_select` (menu.py lines 640-641). -/
def Selector.handleCommandSelect (s : Selector) (i : Int) : Selector :=
  s.selectAt (some i)

/-- `current.stop_editing()` applied to the selected item (menu.py line
1497): clears the editing state of that item (identified by id). -/
def Selector.stopEditingSelected (s : Selector) : Selector :=
  match s.selectedItem with
  | some it =>
    let cleared := s.allitems.map
      (fun x => if x.id == it.id then { x with editing := false } else x)
    { s with allitems := cleared }
  | none => s

/-- The navigation state of `MenuManager` (menu.py).  The stack keeps the
top of stack at the head (the source appends to the end of a Python list);
`containers` is the registry resolving the container object selected inside
a parent (object identity modelled by id). -/
structure Manager where
  menustack : List Selector
  running : Bool
  timer : Nat
  timeout : Nat
  containers : List Selector
deriving DecidableEq

/-- `MenuManager.stack_peek` (menu.py lines 1413-1417). -/
def Manager.stackPeek (m : Manager) : Option Selector :=
  m.menustack.head?

/-- `MenuManager.stack_push` (menu.py lines 1362-1379): enter/leave scripts
are external; unless the incoming container is mid-edit its items are
refreshed and its selection re-initialised; then it is appended. -/
def Manager.stackPush (m : Manager) (c : Selector) : Manager :=
  let c1 := if c.isEditingSel then c else c.initSelection
  { m with menustack := c1 :: m.menustack }

/-- `MenuManager.stack_pop` (menu.py lines 1381-1408): pops the top; unless
the newly exposed top is mid-edit its items are refreshed and its selection
re-initialised (`init_selection`, i.e. reset to `initial`); leave/enter
scripts are external. -/
def Manager.stackPop (m : Manager) : Manager × Option Selector :=
  match m.menustack with
  | [] => (m, none)
  | c :: rest =>
    match rest with
    | [] => ({ m with menustack := [] }, some c)
    | top :: rest2 =>
      let top1 := if top.isEditingSel then top else top.initSelection
      ({ m with menustack := top1 :: rest2 }, some c)

/-- `MenuManager.up` (menu.py lines 1463-1474).  When the selected item is
an input being edited, `dec_value` mutates only that input's value state
(see `InputState`), nothing in this structure. -/
def Manager.up (m : Manager) (_fastRate : Bool) : Manager :=
  match m.menustack with
  | [] => m
  | container :: rest =>
    if m.running = true then
      let m1 := { m with timer := 0 }
      match container.selectedItem with
      | some cur =>
        if cur.isInput = true ∧ cur.editing = true then m1
        else { m1 with menustack := container.selectPrev :: rest }
      | none => { m1 with menustack := container.selectPrev :: rest }
    else m

/-- `MenuManager.down` (menu.py lines 1476-1487). -/
def Manager.down (m : Manager) (_fastRate : Bool) : Manager :=
  match m.menustack with
  | [] => m
  | container :: rest =>
    if m.running = true then
      let m1 := { m with timer := 0 }
      match container.selectedItem with
      | some cur =>
        if cur.isInput = true ∧ cur.editing = true then m1
        else { m1 with menustack := container.selectNext :: rest }
      | none => { m1 with menustack := container.selectNext :: rest }
    else m

/-- `MenuManager.back` (menu.py lines 1489-1511): reset the idle timer;
a selected input being edited blocks the action unless forced (forcing
stops the edit first); then pop the stack and restore the parent's
selection to the index the popped container occupies in the parent's
enabled item list (`index_of`), or leave the menu when there is no
parent. -/
def Manager.back (m : Manager) (force : Bool) : Manager :=
  match m.menustack with
  | [] => m
  | container :: rest =>
    if m.running = true then
      let m1 := { m with timer := 0 }
      let proceed : Option Selector :=
        match container.selectedItem with
        | some cur =>
          if cur.isInput = true ∧ cur.editing = true then
            if force = true then some container.stopEditingSelected else none
          else some container
        | none => some container
      match proceed with
      | none => m1
      | some c =>
        match rest with
        | parent :: rest2 =>
          let m2 := ({ m1 with menustack := c :: parent :: rest2 }).stackPop.1
          match m2.menustack with
          | p1 :: r2 =>
            { m2 with menustack :=
                p1.selectAt ((p1.indexOfId c.id).map Int.ofNat) :: r2 }
          | [] => m2
        | [] =>
          let m2 := ({ m1 with menustack := [c] }).stackPop.1
          { m2 with running := false }
    else m

/-- `MenuManager.press` (menu.py lines 1539-1553): reset the idle timer; a
selected container is pushed; scripts run for other items are external. -/
def Manager.press (m : Manager) : Manager :=
  match m.menustack with
  | [] => m
  | container :: _rest =>
    if m.running = true then
      let m1 := { m with timer := 0 }
      match container.selectedItem with
      | some cur =>
        if cur.isContainer = true then
          match m.containers.find? (fun c => c.id == cur.id) with
          | some child => m1.stackPush child
          | none => m1
        else m1
      | none => m1
    else m

/-- `MenuManager.timeout_check` (menu.py lines 1223-1244), specialised to a
permitted (qualifying) or non-qualifying check: on a qualifying check the
timer is compared with the threshold — reaching it calls `exit()` (which
resets the timer and stops the menu; the scenario has no edit in progress,
so `exit` completes) — otherwise the timer is incremented; on a
non-qualifying check the timer resets to 0. -/
def timeoutCheck (timeout timer : Nat) (permit : Bool) : Nat × Bool :=
  if permit = true then
    if timeout ≤ timer then (0, true)
    else (timer + 1, false)
  else (0, false)

/-- A run of `n` consecutive qualifying timeout checks starting from a given
timer value; the list records, in order, whether each check fired `exit()`. -/
def qualCheckTrace (timeout : Nat) : Nat → Nat → List Bool
  | _timer, 0 => []
  | timer, n + 1 =>
    let r := timeoutCheck timeout timer true
    r.2 :: qualCheckTrace timeout r.1 n

end Menu

namespace Menu

/-- With pairwise distinct item identities, the item found at index `k`
determines the result of the identity search. -/
theorem findIdx_eq_of_get (cid : Nat) :
    ∀ (l : List MItem) (k : Nat) (it : MItem), l.get? k = some it →
      it.id = cid → (l.map MItem.id).Nodup →
      l.findIdx? (fun x => x.id == cid) = some k := by
  intro l
  induction l with
  | nil => intro k it h; simp at h
  | cons a tl ih =>
    intro k it hget hid hnodup
    cases k with
    | zero =>
      simp only [List.get?_cons_zero, Option.some.injEq] at hget
      subst hget
      simp [List.findIdx?_cons, hid]
    | succ n =>
      simp only [List.get?_cons_succ] at hget
      have hmem : it ∈ tl := List.get?_mem hget
      have hane : a.id ≠ cid := by
        intro hc
        have : a.id ∈ tl.map MItem.id := by
          rw [← hid] at hc
          rw [hc]
          exact List.mem_map.mpr ⟨it, hmem, rfl⟩
        exact (List.nodup_cons.mp hnodup).1 this
      have htl := ih n it hget hid (List.nodup_cons.mp hnodup).2
      simp [List.findIdx?_cons, hane, htl]

/-- Changing the selection does not change the item lists. -/
theorem items_selectAt (s : Selector) (i : Option Int) :
    (s.selectAt i).items = s.items := rfl

/-- `init_selection` does not change the item lists. -/
theorem items_initSelection (s : Selector) :
    s.initSelection.items = s.items := rfl

end Menu

namespace Menu

/-- A plain enabled item. -/
def itemPlain : MItem := ⟨1, true, false, false, false⟩

/-- An enabled child-container item, occupying index 1 of its parent. -/
def itemChild : MItem := ⟨2, true, false, false, true⟩

/-- A parent selector whose initial index is 0 but whose current selection
is the child container at index 1. -/
def parentSel : Selector := ⟨0, some 0, some 1, [itemPlain, itemChild]⟩

/-- The container object behind `itemChild` (same identity). -/
def childSel : Selector := ⟨2, none, none, []⟩

/-- A running manager showing `parentSel`. -/
def mgr0 : Manager := ⟨[parentSel], true, 5, 10, [childSel]⟩

/-- A running manager with `childSel` pushed on top of `parentSel`. -/
def mgr1 : Manager := ⟨[childSel, parentSel], true, 5, 10, [childSel]⟩

/-- C4 counterexample to the claim as stated: the selected child container
occupies index 1 of the parent's enabled item list, yet after `stack_push`
followed by plain `stack_pop` the parent's selection is its configured
initial index 0, not 1 — `stack_pop` alone re-initialises the parent's
selection instead of restoring the child's index. -/
theorem c4_counterexample :
    (parentSel.selected = some 1 ∧
      parentSel.items.get? 1 = some itemChild ∧
      itemChild.id = childSel.id) ∧
    ((mgr0.stackPush childSel).stackPop.1.menustack.head?.map
      Selector.selected) = some (some 0) := by decide

/-- C4 (amended): `stack_pop` itself re-initialises the parent's selection
to its configured initial index; it is the `back()` operation (which wraps
`stack_pop`) that restores the parent's selection to the index the popped
child occupies in the parent's enabled item list.  For every running
manager whose top of stack sits above a non-editing parent with pairwise
distinct item identities, if the popped container appears at index `k` of
the parent's enabled items then `back` leaves the parent selected at `k`. -/
theorem c4_back_restores (m : Manager) (container parent : Selector)
    (rest : List Selector) (k : Nat) (it : MItem)
    (hstack : m.menustack = container :: parent :: rest)
    (hrun : m.running = true)
    (hnoedit : ∀ cur, container.selectedItem = some cur →
      ¬(cur.isInput = true ∧ cur.editing = true))
    (hpe : parent.isEditingSel = false)
    (hk : parent.items.get? k = some it)
    (hid : it.id = container.id)
    (hnodup : (parent.items.map MItem.id).Nodup) :
    (m.back false).menustack =
      parent.initSelection.selectAt (some (k : Int)) :: rest ∧
    ((m.back false).menustack.head?.map Selector.selected)
      = some (some (k : Int)) := by
  have hfind : parent.items.findIdx? (fun x => x.id == container.id)
      = some k := findIdx_eq_of_get container.id parent.items k it hk hid hnodup
  cases hsel : container.selectedItem with
  | none =>
    simp only [Manager.back, hstack, hrun, if_true, hsel, Manager.stackPop,
      hpe, Bool.false_eq_true, if_false]
    simp only [Selector.indexOfId, items_initSelection, hfind, Option.map_some]
    exact ⟨rfl, rfl⟩
  | some cur =>
    have hcond : ¬(cur.isInput = true ∧ cur.editing = true) := hnoedit cur hsel
    simp only [Manager.back, hstack, hrun, if_true, hsel, if_neg hcond,
      Manager.stackPop, hpe, Bool.false_eq_true, if_false]
    simp only [Selector.indexOfId, items_initSelection, hfind, Option.map_some]
    exact ⟨rfl, rfl⟩

/-- C4 witness: in the concrete running manager the popped child occupied
index 1 and `back` restores the parent's selection to 1. -/
theorem c4_witness :
    (mgr1.menustack = childSel :: parentSel :: [] ∧ mgr1.running = true ∧
      parentSel.isEditingSel = false ∧
      parentSel.items.get? 1 = some itemChild ∧ itemChild.id = childSel.id ∧
      (parentSel.items.map MItem.id).Nodup) ∧
    ((mgr1.back false).menustack.head?.map Selector.selected)
      = some (some (1 : Int)) :=
  ⟨⟨rfl, rfl, rfl, rfl, rfl, by decide⟩,
    (c4_back_restores mgr1 childSel parentSel [] 1 itemChild rfl rfl
      (fun cur hsel => by simp [childSel, Selector.selectedItem] at hsel)
      rfl rfl rfl (by decide)).2⟩

end Menu

namespace Menu

/-- The n-th of a run of qualifying checks (0-based) fires exactly when the
timer, which started at `k ≤ timeout`, has been incremented up to the
threshold: at position `timeout - k`. -/
theorem qualCheckTrace_get (t : Nat) :
    ∀ m k n, k ≤ t → n ≤ t - k → n < m →
      (qualCheckTrace t k m).get? n = some (decide (n = t - k)) := by
  intro m
  induction m with
  | zero => intro k n _ _ hn; exact absurd hn (Nat.not_lt_zero n)
  | succ m ih =>
    intro k n hk hnt hn
    by_cases hkt : t ≤ k
    · have hke : k = t := by omega
      subst hke
      have hn0 : n = 0 := by omega
      subst hn0
      simp [qualCheckTrace, timeoutCheck]
    · have hne : ¬ (t ≤ k) := hkt
      cases n with
      | zero =>
        have : ¬ ((0 : Nat) = t - k) := by omega
        simp [qualCheckTrace, timeoutCheck, hne, this]
      | succ n2 =>
        have hstep : qualCheckTrace t k (m + 1)
            = false :: qualCheckTrace t (k + 1) m := by
          simp [qualCheckTrace, timeoutCheck, hne]
        rw [hstep]
        simp only [List.get?_cons_succ]
        have hih := ih (k + 1) n2 (by omega) (by omega) (by omega)
        rw [hih]
        have hiff : (n2 = t - (k + 1)) ↔ (n2 + 1 = t - k) := by omega
        rw [decide_eq_decide.mpr hiff]

/-- Every navigation or edit action of a running menu resets the idle
timer to 0. -/
theorem nav_resets_timer (mgr : Manager) (hrun : mgr.running = true)
    (hne : mgr.menustack ≠ []) (f b : Bool) :
    (mgr.up f).timer = 0 ∧ (mgr.down f).timer = 0 ∧
    (mgr.back b).timer = 0 ∧ mgr.press.timer = 0 := by
  cases hs : mgr.menustack with
  | nil => exact absurd hs hne
  | cons container rest =>
    refine ⟨?_, ?_, ?_, ?_⟩
    · simp only [Manager.up, hs]
      repeat' split
      all_goals first | rfl | exact absurd hrun (by assumption)
    · simp only [Manager.down, hs]
      repeat' split
      all_goals first | rfl | exact absurd hrun (by assumption)
    · simp only [Manager.back, hs, Manager.stackPop]
      repeat' split
      all_goals first | rfl | exact absurd hrun (by assumption)
    · simp only [Manager.press, hs, Manager.stackPush]
      repeat' split
      all_goals first | rfl | exact absurd hrun (by assumption)

/-- C5 counterexample to the claim as stated: with a timeout of 10 and the
timer starting at 0, none of the first 10 qualifying checks fires `exit()`
(the timer only reaches 10 after the 10th); the 11th qualifying check is
the one that fires. -/
theorem c5_counterexample :
    qualCheckTrace 10 0 10 = [false, false, false, false, false,
      false, false, false, false, false] ∧
    (qualCheckTrace 10 0 11).get? 10 = some true := by decide

/-- C5 (amended): with a configured timeout of `t > 0` tick units and no
input, `exit()` fires exactly at the (t+1)-th qualifying timeout check —
the n-th check (0-based) fires iff n = t — and any navigation or edit
action (up, down, back, press) of a running menu resets the counter
to 0. -/
theorem c5_timeout (t m n : Nat) (ht : 0 < t) (hn : n < m) (hnt : n ≤ t) :
    ((qualCheckTrace t 0 m).get? n = some true ↔ n = t) ∧
    (∀ mgr : Manager, mgr.running = true → mgr.menustack ≠ [] →
      ∀ f b, (mgr.up f).timer = 0 ∧ (mgr.down f).timer = 0 ∧
        (mgr.back b).timer = 0 ∧ mgr.press.timer = 0) := by
  constructor
  · have hg := qualCheckTrace_get t m 0 n (by omega) (by omega) hn
    rw [Nat.sub_zero] at hg
    rw [hg]
    simp
  · intro mgr h1 h2 f b
    exact nav_resets_timer mgr h1 h2 f b

end Menu

namespace Menu

/-- C5 witness: timeout 10, a run of 12 qualifying checks; the check with
index 10 (the 11th) fires. -/
theorem c5_witness :
    ((0 : Nat) < 10 ∧ (10 : Nat) < 12 ∧ (10 : Nat) ≤ 10) ∧
    ((qualCheckTrace 10 0 12).get? 10 = some true ↔ (10 : Nat) = 10) :=
  ⟨⟨by decide, by decide, by decide⟩,
    (c5_timeout 10 12 10 (by decide) (by decide) (by decide)).1⟩

/-- C8 counterexample to the claim as stated: `select_at` (reachable through
the scriptable command `handle_command_select`) stores its argument without
clamping, so on a selector with 2 enabled items the stored selection can be
the out-of-range integer 5 — observable through the `selected` property. -/
theorem c8_counterexample :
    (parentSel.handleCommandSelect 5).selected = some 5 ∧
    (parentSel.handleCommandSelect 5).items.length = 2 ∧
    ¬(0 ≤ (5 : Int) ∧ (5 : Int) <
      ((parentSel.handleCommandSelect 5).items.length : Int)) := by decide

/-- C8 (amended): the stored `selected` index is not re-clamped and an
out-of-range integer is observable in it, but `selected_item` guards every
access: whenever it returns an item, the stored selection is an in-range
integer and the item is the corresponding member of the live enabled item
list (so a disabled or absent item is never returned). -/
theorem c8_selected_item (s : Selector) (it : MItem)
    (h : s.selectedItem = some it) :
    it ∈ s.items ∧ it.enabled = true ∧
    ∃ i : Int, s.selected = some i ∧ 0 ≤ i ∧
      i < (s.items.length : Int) ∧ s.items.get? i.toNat = some it := by
  cases hsel : s.selected with
  | none => simp [Selector.selectedItem, hsel] at h
  | some i =>
    simp only [Selector.selectedItem, hsel] at h
    by_cases hrange : 0 ≤ i ∧ i < (s.items.length : Int)
    · rw [if_pos hrange] at h
      have hmem : it ∈ s.items := List.get?_mem h
      refine ⟨hmem, ?_, i, rfl, hrange.1, hrange.2, h⟩
      have := List.mem_filter.mp (by simpa [Selector.items] using hmem)
      simpa using this.2
    · rw [if_neg hrange] at h
      exact absurd h (by simp)

/-- C8 witness: the concrete parent selector with selection 1 yields the
child item, which is enabled and sits at index 1 of the live list. -/
theorem c8_witness :
    (parentSel.selectedItem = some itemChild) ∧
    (itemChild ∈ parentSel.items ∧ itemChild.enabled = true ∧
      ∃ i : Int, parentSel.selected = some i ∧ 0 ≤ i ∧
        i < (parentSel.items.length : Int) ∧
        parentSel.items.get? i.toNat = some itemChild) :=
  ⟨by decide, c8_selected_item parentSel itemChild (by decide)⟩

end Menu

namespace Menu

/-- The grave-accent character (U+0060) marking literals in menu text. -/
def backquote : Char := Char.ofNat 96

/-- `MenuManager.stripliterals` (menu.py lines 1719-1728): drop one leading
and one trailing literal marker (`startswith` of the doubled marker implies
`startswith` of the single one, so the doubled test is redundant). -/
def stripliterals (s : List Char) : List Char :=
  let s1 := if s.head? = some backquote then s.drop 1 else s
  if s1.getLast? = some backquote then s1.dropLast else s1

/-- Python `str.ljust`: pad on the right with spaces up to the width; a
string already at least that wide is returned unchanged (never truncated). -/
def ljust (s : List Char) (w : Nat) : List Char :=
  s ++ List.replicate (w - s.length) ' '

/-- First viewport loop of `MenuManager.render` (menu.py lines 1427-1428):
`while viewport_row >= top_row + rows: top_row += 1`.  The source loop does
not terminate when `rows = 0`; that degenerate display is excluded by the
guard. -/
def slideDown (viewportRow rows : Nat) (top : Nat) : Nat :=
  if h : top + rows ≤ viewportRow ∧ 0 < rows then
    slideDown viewportRow rows (top + 1)
  else top
termination_by viewportRow - top
decreasing_by
  rcases h with ⟨h1, h2⟩
  omega

/-- Second viewport loop of `MenuManager.render` (menu.py lines 1429-1430):
`while viewport_row < top_row and top_row > 0: top_row -= 1`. -/
def slideUp (viewportRow : Nat) (top : Nat) : Nat :=
  if h : viewportRow < top ∧ 0 < top then slideUp viewportRow (top - 1)
  else top
termination_by top
decreasing_by
  rcases h with ⟨h1, h2⟩
  omega

/-- `MenuManager.render` (menu.py lines 1419-1440).  `content` carries what
`container.render_content` returned, already split into lines
(`aslatin(...).splitlines()`): the line list and the selection viewport row
(or `None`); `none` stands for a stopped menu or a non-container top of
stack.  Returns the produced lines and the new `top_row`. -/
def render (running : Bool) (rows cols topRow : Nat)
    (content : Option (List (List Char) × Option Nat)) :
    List (List Char) × Nat :=
  match running, content with
  | true, some (ls, vrow) =>
    let top1 :=
      match vrow with
      | some v => slideUp v (slideDown v rows topRow)
      | none => 0
    ((List.range rows).map
      (fun r => ljust (stripliterals (ls.getD (top1 + r) [])) cols), top1)
  | _, _ => ([], topRow)

/-- Padding never shortens: the padded line has length `max w (len s)`. -/
theorem ljust_length (s : List Char) (w : Nat) :
    (ljust s w).length = max w s.length := by
  simp only [ljust, List.length_append, List.length_replicate]
  omega

end Menu

namespace Menu

/-- C9 counterexample to the claim as stated: a running menu with `cols = 2`
whose container produces the line `abcd` outputs that line padded only —
`ljust` pads short lines but never truncates, so the output line keeps
length 4 > 2. -/
theorem c9_counterexample :
    (render true 1 2 0 (some ([['a', 'b', 'c', 'd']], none))).1 =
      [['a', 'b', 'c', 'd']] ∧
    ((render true 1 2 0
      (some ([['a', 'b', 'c', 'd']], none))).1.map List.length) = [4] := by
  decide

/-- C9 (amended): for every render pass of a running menu with a container
on top of the stack, the output is exactly `rows` lines; every line is the
corresponding content line (taken from the slid viewport, missing rows as
the empty string) stripped of literal markers and padded on the right to at
least `cols` characters: shorter lines are padded to exactly `cols`, longer
lines are kept at their full length (never truncated). -/
theorem c9_render (rows cols topRow : Nat) (ls : List (List Char))
    (vrow : Option Nat) :
    (render true rows cols topRow (some (ls, vrow))).1.length = rows ∧
    ∀ line ∈ (render true rows cols topRow (some (ls, vrow))).1,
      cols ≤ line.length ∧
      ∃ r < rows, line =
        ljust (stripliterals
          (ls.getD ((render true rows cols topRow (some (ls, vrow))).2 + r)
            [])) cols ∧
        line.length = max cols (stripliterals
          (ls.getD ((render true rows cols topRow (some (ls, vrow))).2 + r)
            [])).length := by
  constructor
  · simp [render]
  · intro line hline
    simp only [render, List.mem_map, List.mem_range] at hline
    obtain ⟨r, hr, hl⟩ := hline
    subst hl
    refine ⟨?_, r, hr, ?_, ?_⟩
    · rw [ljust_length]
      exact le_max_left _ _
    · rfl
    · rw [ljust_length]
      rfl

/-- C9 witness: a 2-row, 3-column display with one short content line
produces exactly 2 lines. -/
theorem c9_witness :
    (render true 2 3 0 (some ([['a']], none))).1.length = 2 :=
  (c9_render 2 3 0 [['a']] none).1

end Menu
